import Mathlib

/-!
Verification development for the ISA knowledge-base retrieval engine.

This file gives a shallow embedding, in Lean, of the query-time algorithms of
the engine — multi-hop graph traversal (`hop_retrieve`, `guide_to_isa_hop`),
reciprocal-rank fusion and multi-tier weighting (`_rrf_fuse`,
`multi_tier_search`), the context assembler's budget loops (`format_context`),
citation verification (`citation_verify`), contradiction detection
(`contradiction_check`), and acronym query expansion (`expand_query`) —
together with theorems settling the specification's claims about them.

Numbers are embedded as exact rationals (`ℚ`); node identifiers and text as
`String` / `List Char`.  Database tables are parameters (lists of rows), and
each SQL query or Python loop is translated into a corresponding pure
function.
-/

namespace IsaKb

/-! ## Graph model: the `hop_edge` table and the recursive CTE of `hop_retrieve` -/

/-- A row of the `hop_edge` table: a directed weighted edge. -/
structure HEdge where
  src : String
  dst : String
  weight : ℚ
  hop_type : String
deriving DecidableEq

/-- One row of the recursive CTE `hops` in `hop_retrieve`:
destination node, accumulated score, path of visited source nodes,
depth, and the edge-type of the final hop. -/
structure HopRow where
  dst_id : String
  score : ℚ
  path : List String
  depth : Nat
  hop_type : String
deriving DecidableEq

/-- Base case of the CTE: the direct out-edges of the seed
(`SELECT e.dst_id, e.weight AS score, list_value(e.src_id) AS path, 1 AS depth, e.hop_type
FROM hop_edge e WHERE e.src_id = ?`).  Note: no `min_score` filter here. -/
def baseRows (g : List HEdge) (seed : String) : List HopRow :=
  (g.filter (fun e => decide (e.src = seed))).map
    (fun e => { dst_id := e.dst, score := e.weight, path := [e.src], depth := 1,
                hop_type := e.hop_type })

/-- The score update applied on each recursive hop:
`h.score * decay * e.weight`. -/
def nextScore (decay s w : ℚ) : ℚ := s * decay * w

/-- Recursive case of the CTE: extend one frontier row `h` by one hop.
Mirrors `WHERE h.depth < max_hops AND NOT list_contains(h.path, e.dst_id)
AND h.score * decay * e.weight >= min_score`. -/
def stepRows (g : List HEdge) (decay minScore : ℚ) (maxHops : Nat) (h : HopRow) :
    List HopRow :=
  if h.depth < maxHops then
    (g.filter (fun e =>
        decide (e.src = h.dst_id) && !(h.path.contains e.dst) &&
        decide (minScore ≤ nextScore decay h.score e.weight))).map
      (fun e => { dst_id := e.dst, score := nextScore decay h.score e.weight,
                  path := h.path ++ [e.src], depth := h.depth + 1,
                  hop_type := e.hop_type })
  else []

/-- Fixed-point iteration of the recursive CTE: the union of the frontier with
all further iterations (fuelled; `stepRows` stops producing at `maxHops`). -/
def cteGo (g : List HEdge) (decay minScore : ℚ) (maxHops : Nat) :
    Nat → List HopRow → List HopRow
  | 0, front => front
  | n + 1, front =>
      front ++ cteGo g decay minScore maxHops n
        ((front.map (stepRows g decay minScore maxHops)).flatten)

/-- All rows of the recursive CTE `hops` for a given seed. -/
def cteRows (g : List HEdge) (seed : String) (decay minScore : ℚ) (maxHops : Nat) :
    List HopRow :=
  cteGo g decay minScore maxHops maxHops (baseRows g seed)

/-- Fold step used to realise `DISTINCT ON (p.id) ... ORDER BY p.id, h.score DESC`:
keep the row with the larger score. -/
def chooseBest (acc : Option HopRow) (r : HopRow) : Option HopRow :=
  some (match acc with
    | none => r
    | some b => if b.score < r.score then r else b)

/-- The best-scoring CTE row for a given destination id, if any. -/
def bestRowFor (rows : List HopRow) (id : String) : Option HopRow :=
  (rows.filter (fun r => decide (r.dst_id = id))).foldl chooseBest none

/-- Descending-score ordering on hop rows (Python `rows.sort(key=lambda r: -score)`). -/
def hopRowGe (a b : HopRow) : Prop := b.score ≤ a.score

instance : DecidableRel hopRowGe := fun a b =>
  inferInstanceAs (Decidable (b.score ≤ a.score))

instance : IsTotal HopRow hopRowGe := ⟨fun a b => le_total b.score a.score⟩

instance : IsTrans HopRow hopRowGe :=
  ⟨fun _ _ _ h1 h2 => le_trans h2 h1⟩

/-- The `connected` list of `hop_retrieve`: one best row per non-seed
destination, sorted by descending score and truncated to `maxResults`.
(The reported `hop_score` field is this row's score rounded to 4 decimals;
the rounding only affects display and is not modelled here.) -/
def connectedRows (g : List HEdge) (seed : String) (decay minScore : ℚ)
    (maxHops maxResults : Nat) : List HopRow :=
  let rows := cteRows g seed decay minScore maxHops
  let ids := ((rows.map (fun r => r.dst_id)).dedup).filter (fun i => decide (¬ i = seed))
  let best := ids.filterMap (bestRowFor rows)
  (best.insertionSort hopRowGe).take maxResults

/-! ## Structural lemmas about the CTE -/

lemma mem_stepRows {g : List HEdge} {decay minScore : ℚ} {maxHops : Nat} {h : HopRow}
    {r : HopRow} (hr : r ∈ stepRows g decay minScore maxHops h) :
    h.depth < maxHops ∧ ∃ e ∈ g, e.src = h.dst_id ∧ h.path.contains e.dst = false ∧
      minScore ≤ nextScore decay h.score e.weight ∧
      r = { dst_id := e.dst, score := nextScore decay h.score e.weight,
            path := h.path ++ [e.src], depth := h.depth + 1, hop_type := e.hop_type } := by
  unfold stepRows at hr
  split at hr
  · simp only [List.mem_map, List.mem_filter, Bool.and_eq_true, decide_eq_true_eq,
      Bool.not_eq_true'] at hr
    obtain ⟨e, ⟨he, ⟨hsrc, hpath⟩, hmin⟩, heq⟩ := hr
    exact ⟨by assumption, e, he, hsrc, hpath, hmin, heq.symm⟩
  · simp at hr

lemma mem_baseRows {g : List HEdge} {seed : String} {r : HopRow}
    (hr : r ∈ baseRows g seed) :
    ∃ e ∈ g, e.src = seed ∧
      r = { dst_id := e.dst, score := e.weight, path := [e.src], depth := 1,
            hop_type := e.hop_type } := by
  unfold baseRows at hr
  simp only [List.mem_map, List.mem_filter, decide_eq_true_eq] at hr
  obtain ⟨e, ⟨he, hsrc⟩, heq⟩ := hr
  exact ⟨e, he, hsrc, heq.symm⟩

/-- Invariant preservation along the CTE iteration. -/
lemma cteGo_forall {g : List HEdge} {decay minScore : ℚ} {maxHops : Nat}
    (P : HopRow → Prop)
    (hstep : ∀ h, P h → ∀ r ∈ stepRows g decay minScore maxHops h, P r) :
    ∀ fuel front, (∀ r ∈ front, P r) →
      ∀ r ∈ cteGo g decay minScore maxHops fuel front, P r := by
  intro fuel
  induction fuel with
  | zero => intro front hf r hr; exact hf r hr
  | succ n ih =>
      intro front hf r hr
      simp only [cteGo, List.mem_append] at hr
      rcases hr with hr | hr
      · exact hf r hr
      · refine ih _ ?_ r hr
        intro r' hr'
        simp only [List.mem_flatten, List.mem_map] at hr'
        obtain ⟨l, ⟨h, hh, rfl⟩, hrl⟩ := hr'
        exact hstep h (hf h hh) r' hrl

/-- Every CTE row produced at depth ≥ 2 passed the recursive-case
`min_score` filter. -/
lemma cteRows_depth2_min {g : List HEdge} {seed : String} {decay minScore : ℚ}
    {maxHops : Nat} :
    ∀ r ∈ cteRows g seed decay minScore maxHops, 2 ≤ r.depth → minScore ≤ r.score := by
  refine cteGo_forall (fun r => 2 ≤ r.depth → minScore ≤ r.score) ?_ maxHops _ ?_
  · intro h _ r hr _
    obtain ⟨_, e, _, _, _, hmin, rfl⟩ := mem_stepRows hr
    exact hmin
  · intro r hr hd
    obtain ⟨e, _, _, rfl⟩ := mem_baseRows hr
    simp only at hd
    omega

lemma chooseBest_eq {acc : Option HopRow} {a r : HopRow} (h : chooseBest acc a = some r) :
    acc = some r ∨ r = a := by
  unfold chooseBest at h
  cases acc with
  | none => simp only [Option.some.injEq] at h; exact Or.inr h.symm
  | some b =>
      simp only [Option.some.injEq] at h
      by_cases hlt : b.score < a.score
      · rw [if_pos hlt] at h; exact Or.inr h.symm
      · rw [if_neg hlt] at h; exact Or.inl (by rw [h])

lemma chooseBest_foldl_mem : ∀ (l : List HopRow) (acc : Option HopRow) (r : HopRow),
    l.foldl chooseBest acc = some r → acc = some r ∨ r ∈ l := by
  intro l
  induction l with
  | nil => intro acc r h; exact Or.inl h
  | cons a l ih =>
      intro acc r h
      simp only [List.foldl_cons] at h
      rcases ih _ r h with h' | h'
      · rcases chooseBest_eq h' with h'' | h''
        · exact Or.inl h''
        · exact Or.inr (by simp [h''])
      · exact Or.inr (List.mem_cons_of_mem _ h')

lemma bestRowFor_mem {rows : List HopRow} {id : String} {r : HopRow}
    (h : bestRowFor rows id = some r) : r ∈ rows ∧ r.dst_id = id := by
  unfold bestRowFor at h
  rcases chooseBest_foldl_mem _ none r h with h' | h'
  · exact absurd h' (by simp)
  · simpa only [List.mem_filter, decide_eq_true_eq] using h'

/-- Every entry of the `connected` output is a CTE row whose destination is
not the seed. -/
lemma mem_connectedRows {g : List HEdge} {seed : String} {decay minScore : ℚ}
    {maxHops maxResults : Nat} {r : HopRow}
    (hr : r ∈ connectedRows g seed decay minScore maxHops maxResults) :
    r ∈ cteRows g seed decay minScore maxHops ∧ r.dst_id ≠ seed := by
  unfold connectedRows at hr
  have h1 := List.take_subset _ _ hr
  rw [List.mem_insertionSort] at h1
  simp only [List.mem_filterMap] at h1
  obtain ⟨id, hid, hbest⟩ := h1
  obtain ⟨hmem, hdst⟩ := bestRowFor_mem hbest
  simp only [List.mem_filter, decide_eq_true_eq] at hid
  exact ⟨hmem, by rw [hdst]; exact hid.2⟩

/-! ## C1: depth-1 results ignore the min-score threshold -/

/-- C1, counterexample: on a graph with the single edge `s → x` of weight
`1/200`, with `min_score = 1/100`, `hop_retrieve` still returns `x` with
accumulated score `1/200 < 1/100`: the base case of the CTE applies no
min-score filter, so the claim that every returned node (including those
first reached at depth 1) has best accumulated path score ≥ `m` is false. -/
theorem hop_retrieve_depth1_ignores_min_score :
    ∃ r, r ∈ connectedRows [⟨"s", "x", 1/200, "cites"⟩] "s" (7/10) (1/100) 2 30 ∧
      r.score < 1/100 := by
  refine ⟨⟨"x", 1/200, ["s"], 1, "cites"⟩, ?_, by norm_num⟩
  norm_num [connectedRows, cteRows, cteGo, baseRows, stepRows, nextScore, bestRowFor,
    chooseBest, hopRowGe, List.insertionSort, List.orderedInsert, List.dedup, List.foldl,
    List.filter, List.filterMap]

/-- C1 (amended): every node returned by `hop_retrieve` is distinct from the
seed, and every returned node whose best path has depth ≥ 2 has accumulated
score ≥ `min_score`; depth-1 neighbours are returned regardless of
`min_score`, because the pruning condition is only applied when a path is
extended. -/
theorem hop_retrieve_min_score_amended (g : List HEdge) (seed : String)
    (decay minScore : ℚ) (maxHops maxResults : Nat) (r : HopRow)
    (hr : r ∈ connectedRows g seed decay minScore maxHops maxResults) :
    r.dst_id ≠ seed ∧ (2 ≤ r.depth → minScore ≤ r.score) := by
  obtain ⟨hmem, hne⟩ := mem_connectedRows hr
  exact ⟨hne, cteRows_depth2_min r hmem⟩

/-- Witness for `hop_retrieve_min_score_amended` at a concrete two-edge graph:
node `b` is returned at depth 2 with score `0.504 ≥ 0.01`. -/
theorem hop_retrieve_min_score_amended_witness :
    ("b" : String) ≠ "s" ∧ (2 ≤ 2 → (1 : ℚ)/100 ≤ 504/1000) := by
  have h := hop_retrieve_min_score_amended
    [⟨"s", "a", 9/10, "t"⟩, ⟨"a", "b", 8/10, "t"⟩] "s" (7/10) (1/100) 2 30
    ⟨"b", 504/1000, ["s", "a"], 2, "t"⟩
    (by norm_num [connectedRows, cteRows, cteGo, baseRows, stepRows, nextScore, bestRowFor,
        chooseBest, hopRowGe, List.insertionSort, List.orderedInsert, List.dedup, List.foldl,
        List.filter, List.filterMap, List.contains])
  simpa using h

/-! ## C4: the accumulated path score is `w1 · (d·w2) · … · (d·wk)` -/

/-- The accumulated score of a path, as computed by the CTE: the base case
is the first edge's own weight, and each further hop applies `nextScore`. -/
def codeScore (decay w1 : ℚ) (ws : List ℚ) : ℚ :=
  ws.foldl (fun s w => nextScore decay s w) w1

/-- `edgeChain g s es t` says the edges `es` form a directed chain in `g`
from node `s` to node `t`. -/
def edgeChain (g : List HEdge) : String → List HEdge → String → Prop
  | s, [], t => s = t
  | s, e :: es, t => e ∈ g ∧ e.src = s ∧ edgeChain g e.dst es t

lemma edgeChain_snoc {g : List HEdge} {s t : String} {es : List HEdge} {e : HEdge}
    (hc : edgeChain g s es t) (he : e ∈ g) (hsrc : e.src = t) :
    edgeChain g s (es ++ [e]) e.dst := by
  induction es generalizing s with
  | nil =>
      have hst : s = t := hc
      exact ⟨he, hsrc.trans hst.symm, rfl⟩
  | cons f fs ih =>
      obtain ⟨hf, hfs, hrest⟩ := hc
      exact ⟨hf, hfs, ih hrest⟩

lemma codeScore_snoc (decay w1 w : ℚ) (ws : List ℚ) :
    codeScore decay w1 (ws ++ [w]) = nextScore decay (codeScore decay w1 ws) w := by
  unfold codeScore
  rw [List.foldl_append]
  rfl

/-- The fold of `nextScore` equals the closed-form product
`w1 * ∏ (decay * wi)`. -/
lemma codeScore_eq_prod (decay w1 : ℚ) (ws : List ℚ) :
    codeScore decay w1 ws = w1 * (ws.map (fun w => decay * w)).prod := by
  induction ws generalizing w1 with
  | nil => simp [codeScore]
  | cons w ws ih =>
      show codeScore decay (nextScore decay w1 w) ws = _
      rw [ih]
      simp only [nextScore, List.map_cons, List.prod_cons]
      ring

/-- Soundness invariant: a CTE row arises from a chain of edges starting at
the seed, its score is the `codeScore` of that chain's weights, and its
depth is the chain's length. -/
def RowSound (g : List HEdge) (seed : String) (decay : ℚ) (r : HopRow) : Prop :=
  ∃ e es, edgeChain g seed (e :: es) r.dst_id ∧
    r.score = codeScore decay e.weight (es.map (fun x => x.weight)) ∧
    r.depth = es.length + 1

lemma baseRows_sound {g : List HEdge} {seed : String} (decay : ℚ) :
    ∀ r ∈ baseRows g seed, RowSound g seed decay r := by
  intro r hr
  obtain ⟨e, he, hsrc, rfl⟩ := mem_baseRows hr
  exact ⟨e, [], ⟨he, hsrc, rfl⟩, by simp [codeScore], by simp⟩

lemma stepRows_sound {g : List HEdge} {seed : String} {decay minScore : ℚ}
    {maxHops : Nat} :
    ∀ h, RowSound g seed decay h →
      ∀ r ∈ stepRows g decay minScore maxHops h, RowSound g seed decay r := by
  rintro h ⟨e0, es, hchain, hscore, hdepth⟩ r hr
  obtain ⟨_, e, he, hsrc, _, _, rfl⟩ := mem_stepRows hr
  refine ⟨e0, es ++ [e], edgeChain_snoc hchain he hsrc, ?_, ?_⟩
  · simp only [List.map_append, List.map_cons, List.map_nil, codeScore_snoc, hscore]
  · simp [hdepth]

lemma cteRows_sound {g : List HEdge} {seed : String} {decay minScore : ℚ}
    {maxHops : Nat} :
    ∀ r ∈ cteRows g seed decay minScore maxHops, RowSound g seed decay r :=
  cteGo_forall _ stepRows_sound maxHops _ (baseRows_sound decay)

/-- C4: every node returned by `hop_retrieve` was reached by a chain of
edges `e :: es` in the graph starting at the seed, and its accumulated
score equals `e.weight * ∏ (decay * w)` over the weights `w` of the
subsequent edges `es` — the base case score is the first edge's own weight
and each further hop multiplies by `decay × edge.weight`. -/
theorem hop_retrieve_score_is_decayed_product (g : List HEdge) (seed : String)
    (decay minScore : ℚ) (maxHops maxResults : Nat) (r : HopRow)
    (hr : r ∈ connectedRows g seed decay minScore maxHops maxResults) :
    ∃ e es, edgeChain g seed (e :: es) r.dst_id ∧
      r.score = e.weight * (es.map (fun x => decay * x.weight)).prod ∧
      r.depth = es.length + 1 := by
  obtain ⟨hmem, _⟩ := mem_connectedRows hr
  obtain ⟨e, es, hc, hs, hd⟩ := cteRows_sound r hmem
  refine ⟨e, es, hc, ?_, hd⟩
  rw [hs, codeScore_eq_prod, List.map_map]
  rfl

/-- Witness for `hop_retrieve_score_is_decayed_product`: with decay `0.7`, a
first edge of weight `0.9` and a second of weight `0.8`, the returned
two-hop node has score `0.9 × (0.7 × 0.8) = 0.504`. -/
theorem hop_retrieve_score_is_decayed_product_witness :
    ∃ e es, edgeChain [⟨"s", "a", 9/10, "t"⟩, ⟨"a", "b", 8/10, "t"⟩] "s" (e :: es) "b" ∧
      (504/1000 : ℚ) = e.weight * (es.map (fun x => (7/10) * x.weight)).prod ∧
      2 = es.length + 1 := by
  have h := hop_retrieve_score_is_decayed_product
    [⟨"s", "a", 9/10, "t"⟩, ⟨"a", "b", 8/10, "t"⟩] "s" (7/10) (1/100) 2 30
    ⟨"b", 504/1000, ["s", "a"], 2, "t"⟩
    (by norm_num [connectedRows, cteRows, cteGo, baseRows, stepRows, nextScore, bestRowFor,
        chooseBest, hopRowGe, List.insertionSort, List.orderedInsert, List.dedup, List.foldl,
        List.filter, List.filterMap, List.contains])
  simpa using h

/-! ## C7: `guide_to_isa_hop` — direct `maps_to` references plus further hops -/

/-- A row of the `maps_to` table: Section → Paragraph. -/
structure MEdge where
  src : String
  dst : String
deriving DecidableEq

/-- The directly-referenced paragraph ids of a guide section
(`SELECT ... FROM maps_to m JOIN ISAParagraph p ON m.dst_id = p.id
WHERE m.src_id = ?`). -/
def directRefs (mapsTo : List MEdge) (gid : String) : List String :=
  (mapsTo.filter (fun e => decide (e.src = gid))).map (fun e => e.dst)

/-- Body of the inner loop of `guide_to_isa_hop`: skip a hop result whose id
was already seen, otherwise record it with
`hop_path = [guide_section_id, ref_id] + conn.hop_path` and
`hop_depth = conn.hop_depth + 1`. -/
def gHopInner (gid ref : String) (st : List String × List HopRow) (conn : HopRow) :
    List String × List HopRow :=
  if st.1.contains conn.dst_id then st
  else (st.1 ++ [conn.dst_id],
        st.2 ++ [{ conn with path := gid :: ref :: conn.path, depth := conn.depth + 1 }])

/-- One outer-loop iteration of `guide_to_isa_hop`: run `hop_retrieve` from a
direct reference and merge its results. -/
def gHopStep (g : List HEdge) (gid : String) (decay minScore : ℚ)
    (maxHops maxResults : Nat) (st : List String × List HopRow) (ref : String) :
    List String × List HopRow :=
  (connectedRows g ref decay minScore maxHops maxResults).foldl (gHopInner gid ref) st

/-- `guide_to_isa_hop`: returns the direct `maps_to` references and the merged
further-hop results (sorted by score, truncated to `maxResults`), with the
seen-set initialised to the direct ids. -/
def guideToIsaHop (mapsTo : List MEdge) (g : List HEdge) (gid : String)
    (decay minScore : ℚ) (maxHops maxResults : Nat) : List String × List HopRow :=
  let direct := directRefs mapsTo gid
  let further :=
    if 0 < maxHops then
      (direct.foldl (gHopStep g gid decay minScore maxHops maxResults) (direct, [])).2
    else []
  (direct, (further.insertionSort hopRowGe).take maxResults)

/-- Fold-invariant preservation with membership of the traversed list. -/
lemma foldl_inv_mem {α β : Type} (P : β → Prop) :
    ∀ (l : List α) (f : β → α → β),
      (∀ b a, a ∈ l → P b → P (f b a)) → ∀ b, P b → P (l.foldl f b) := by
  intro l
  induction l with
  | nil => intro f _ b hb; simpa using hb
  | cons a l ih =>
      intro f hstep b hb
      simp only [List.foldl_cons]
      exact ih f (fun b' a' ha' hb' => hstep b' a' (List.mem_cons_of_mem _ ha') hb') _
        (hstep b a (List.mem_cons_self _ _) hb)

/-- The re-prefixing/depth/dedup invariant carried by the merge loop of
`guide_to_isa_hop`. -/
def GInv (mapsTo : List MEdge) (g : List HEdge) (gid : String)
    (decay minScore : ℚ) (maxHops maxResults : Nat)
    (st : List String × List HopRow) : Prop :=
  (∀ x ∈ directRefs mapsTo gid, x ∈ st.1) ∧
  (∀ x ∈ st.2.map (fun r => r.dst_id), x ∈ st.1) ∧
  (st.2.map (fun r => r.dst_id)).Nodup ∧
  (∀ r ∈ st.2, r.dst_id ∉ directRefs mapsTo gid ∧
     ∃ ref ∈ directRefs mapsTo gid,
       ∃ hr ∈ connectedRows g ref decay minScore maxHops maxResults,
         r.dst_id = hr.dst_id ∧ r.path = gid :: ref :: hr.path ∧ r.depth = hr.depth + 1)

lemma gHopInner_inv {mapsTo : List MEdge} {g : List HEdge} {gid : String}
    {decay minScore : ℚ} {maxHops maxResults : Nat} {ref : String}
    {st : List String × List HopRow} {conn : HopRow}
    (href : ref ∈ directRefs mapsTo gid)
    (hconn : conn ∈ connectedRows g ref decay minScore maxHops maxResults)
    (h : GInv mapsTo g gid decay minScore maxHops maxResults st) :
    GInv mapsTo g gid decay minScore maxHops maxResults (gHopInner gid ref st conn) := by
  obtain ⟨hdir, hseen, hnd, hq⟩ := h
  unfold gHopInner
  by_cases hc : st.1.contains conn.dst_id
  · rw [if_pos hc]
    exact ⟨hdir, hseen, hnd, hq⟩
  · have hnotin : conn.dst_id ∉ st.1 := by simpa using hc
    rw [if_neg hc]
    refine ⟨?_, ?_, ?_, ?_⟩
    · intro x hx
      exact List.mem_append_left _ (hdir x hx)
    · intro x hx
      simp only [List.map_append, List.map_cons, List.map_nil, List.mem_append,
        List.mem_singleton] at hx
      rcases hx with hx | hx
      · exact List.mem_append_left _ (hseen x hx)
      · subst hx
        exact List.mem_append_right _ (by simp)
    · simp only [List.map_append, List.map_cons, List.map_nil]
      rw [List.nodup_append]
      refine ⟨hnd, List.nodup_singleton _, ?_⟩
      intro x hx hx'
      simp only [List.mem_singleton] at hx'
      subst hx'
      exact hnotin (hseen _ hx)
    · intro r hr
      simp only [List.mem_append, List.mem_singleton] at hr
      rcases hr with hr | hr
      · exact hq r hr
      · subst hr
        refine ⟨fun hmem => hnotin (hdir _ hmem), ref, href, conn, hconn, rfl, rfl, rfl⟩

lemma gHopStep_inv {mapsTo : List MEdge} {g : List HEdge} {gid : String}
    {decay minScore : ℚ} {maxHops maxResults : Nat} {ref : String}
    {st : List String × List HopRow}
    (href : ref ∈ directRefs mapsTo gid)
    (h : GInv mapsTo g gid decay minScore maxHops maxResults st) :
    GInv mapsTo g gid decay minScore maxHops maxResults
      (gHopStep g gid decay minScore maxHops maxResults st ref) :=
  foldl_inv_mem _ _ _ (fun _ _ hconn h' => gHopInner_inv href hconn h') _ h

/-- C7 counterexample: with `maps_to` edge `g → p` and hop edge `p → x`, the
hop result for `x` (seeded at `p`) has path `[p]`, but the merged result's
path is `[g, p, p]` — the originating paragraph id `p` is prepended *in
addition to* the hop path that already starts with it, so the path is not
the hop path re-prefixed with exactly the Section id (`[g, p]`). -/
theorem guide_to_isa_hop_path_duplicates_ref :
    ((guideToIsaHop [⟨"g", "p"⟩] [⟨"p", "x", 9/10, "t"⟩] "g" (7/10) (1/100) 2 30).2.map
        (fun r => r.path) = [["g", "p", "p"]]) ∧
    ((connectedRows [⟨"p", "x", 9/10, "t"⟩] "p" (7/10) (1/100) 2 30).map
        (fun r => r.path) = [["p"]]) ∧
    (["g", "p", "p"] : List String) ≠ "g" :: ["p"] := by
  refine ⟨?_, ?_, by decide⟩ <;>
    norm_num [guideToIsaHop, directRefs, gHopStep, gHopInner, connectedRows, cteRows,
      cteGo, baseRows, stepRows, nextScore, bestRowFor, chooseBest, hopRowGe,
      List.insertionSort, List.orderedInsert, List.dedup, List.foldl, List.filter,
      List.filterMap, List.contains]

/-- C7 (amended): every merged further-hop result of `guide_to_isa_hop` comes
from an ordinary hop result `hr` out of some direct reference `ref`, with
path equal to `[guide_section_id, ref]` followed by `hr`'s path (so `ref`
appears twice, since `hr`'s path already starts with it) and depth equal to
`hr`'s depth plus one; results are deduplicated by node id against the
direct references and against each other. -/
theorem guide_to_isa_hop_amended (mapsTo : List MEdge) (g : List HEdge) (gid : String)
    (decay minScore : ℚ) (maxHops maxResults : Nat) :
    (∀ r ∈ (guideToIsaHop mapsTo g gid decay minScore maxHops maxResults).2,
       r.dst_id ∉ directRefs mapsTo gid ∧
       ∃ ref ∈ directRefs mapsTo gid,
         ∃ hr ∈ connectedRows g ref decay minScore maxHops maxResults,
           r.dst_id = hr.dst_id ∧ r.path = gid :: ref :: hr.path ∧
           r.depth = hr.depth + 1) ∧
    ((guideToIsaHop mapsTo g gid decay minScore maxHops maxResults).2.map
       (fun r => r.dst_id)).Nodup := by
  have hinv : GInv mapsTo g gid decay minScore maxHops maxResults
      (directRefs mapsTo gid, []) := by
    refine ⟨fun x hx => hx, ?_, ?_, ?_⟩ <;> simp
  by_cases hmh : 0 < maxHops
  · have hfold := foldl_inv_mem
      (GInv mapsTo g gid decay minScore maxHops maxResults)
      (directRefs mapsTo gid)
      (gHopStep g gid decay minScore maxHops maxResults)
      (fun _ ref href h' => gHopStep_inv href h') _ hinv
    obtain ⟨_, _, hnd, hq⟩ := hfold
    constructor
    · intro r hr
      unfold guideToIsaHop at hr
      simp only [if_pos hmh] at hr
      have := List.take_subset _ _ hr
      rw [List.mem_insertionSort] at this
      exact hq r this
    · unfold guideToIsaHop
      simp only [if_pos hmh]
      rw [List.map_take]
      have hperm := List.perm_insertionSort hopRowGe
        ((directRefs mapsTo gid).foldl
          (gHopStep g gid decay minScore maxHops maxResults)
          (directRefs mapsTo gid, [])).2
      have hbig := ((hperm.map (fun r => r.dst_id)).nodup_iff).mpr hnd
      exact List.Nodup.sublist (List.take_sublist _ _) hbig
  · constructor
    · intro r hr
      unfold guideToIsaHop at hr
      simp only [if_neg hmh] at hr
      simp [List.insertionSort] at hr
    · unfold guideToIsaHop
      simp only [if_neg hmh]
      simp [List.insertionSort]

/-- Witness for `guide_to_isa_hop_amended` at a concrete one-edge graph. -/
theorem guide_to_isa_hop_amended_witness :
    ("x" : String) ∉ directRefs [⟨"g", "p"⟩] "g" ∧
    ∃ ref ∈ directRefs [⟨"g", "p"⟩] "g",
      ∃ hr ∈ connectedRows [⟨"p", "x", 9/10, "t"⟩] ref (7/10) (1/100) 2 30,
        ("x" : String) = hr.dst_id ∧
        (["g", "p", "p"] : List String) = "g" :: ref :: hr.path ∧
        (2 : Nat) = hr.depth + 1 := by
  have h := (guide_to_isa_hop_amended [⟨"g", "p"⟩] [⟨"p", "x", 9/10, "t"⟩] "g"
      (7/10) (1/100) 2 30).1 ⟨"x", 9/10, ["g", "p", "p"], 2, "t"⟩
    (by norm_num [guideToIsaHop, directRefs, gHopStep, gHopInner, connectedRows, cteRows,
        cteGo, baseRows, stepRows, nextScore, bestRowFor, chooseBest, hopRowGe,
        List.insertionSort, List.orderedInsert, List.dedup, List.foldl, List.filter,
        List.filterMap, List.contains])
  simpa using h

/-! ## RRF fusion and multi-tier search (`_rrf_fuse`, `multi_tier_search`) -/

/-- A search result record.  `confidence` and `rrf_score` model the optional
fields of the result dict; `tier` tags the corpus tier; `weighted_score` is
filled in by `multi_tier_search`. -/
structure TRec where
  id : String
  confidence : Option ℚ
  rrf_score : Option ℚ
  tier : Nat
  weighted_score : ℚ
deriving DecidableEq

/-- Rank-contribution sum of one ranked id list, as accumulated by the
`for rank, r in enumerate(...)` loops of `_rrf_fuse`: an occurrence at rank
`r` contributes `1 / (k + rank + 1)`. -/
def listContrib (k : Nat) : Nat → List String → String → ℚ
  | _, [], _ => 0
  | r, a :: l, id =>
      (if a = id then (1 : ℚ) / ((k : ℚ) + (r : ℚ) + 1) else 0) +
        listContrib k (r + 1) l id

/-- The fused RRF score of an id: its contributions over the keyword list
plus its contributions over the vector list. -/
def rrfScore (k : Nat) (kaIds vaIds : List String) (id : String) : ℚ :=
  listContrib k 0 kaIds id + listContrib k 0 vaIds id

/-- First-occurrence deduplication: the key-insertion order of the Python
`scores` dict. -/
def firstDedupAux : List String → List String → List String
  | [], _ => []
  | x :: xs, seen =>
      if seen.contains x then firstDedupAux xs seen
      else x :: firstDedupAux xs (x :: seen)

def firstDedup (l : List String) : List String := firstDedupAux l []

/-- `result_map[rid]` after both loops of `_rrf_fuse`: the last record with
this id in keyword-then-vector order (later writes overwrite earlier ones). -/
def lastRec (l : List TRec) (id : String) : Option TRec :=
  (l.filter (fun r => decide (r.id = id))).getLast?

/-- Descending ordering by fused RRF score. -/
def rrfGe (a b : TRec) : Prop := b.rrf_score.getD 0 ≤ a.rrf_score.getD 0

instance : DecidableRel rrfGe := fun _ _ =>
  inferInstanceAs (Decidable (_ ≤ _))

instance : IsTotal TRec rrfGe := ⟨fun _ _ => le_total _ _⟩

instance : IsTrans TRec rrfGe := ⟨fun _ _ _ h1 h2 => le_trans h2 h1⟩

/-- `_rrf_fuse`: one entry per id (dict-insertion order), built from the last
record stored for that id, annotated with the summed RRF score, sorted by
descending fused score. -/
def rrfFuse (k : Nat) (ka va : List TRec) : List TRec :=
  let kaIds := ka.map (fun r => r.id)
  let vaIds := va.map (fun r => r.id)
  let entries := (firstDedup (kaIds ++ vaIds)).filterMap (fun id =>
    (lastRec (ka ++ va) id).map
      (fun r => { r with rrf_score := some (rrfScore k kaIds vaIds id) }))
  entries.insertionSort rrfGe

/-- `TIER_WEIGHTS = {1: 0.85, 2: 1.0}` with `.get(tier, 1.0)` default. -/
def tierWeight (t : Nat) : ℚ :=
  if t = 1 then 85/100 else if t = 2 then 1 else 1

/-- `base_score = r.get("confidence", r.get("rrf_score", 0))`. -/
def baseScore (r : TRec) : ℚ := r.confidence.getD (r.rrf_score.getD 0)

/-- Python `round(x, 6)`.  (Python rounds half to even; `round` rounds half
up.  They differ only at exact half-microunits, which cannot arise from the
4-decimal confidences weighted by 0.85 or 1.0.) -/
def round6 (q : ℚ) : ℚ := (round (q * 1000000) : ℚ) / 1000000

/-- The tier-weighting loop of `multi_tier_search`:
`r["weighted_score"] = round(base_score * TIER_WEIGHTS.get(tier, 1.0), 6)`. -/
def applyWeights (rs : List TRec) : List TRec :=
  rs.map (fun r => { r with weighted_score := round6 (baseScore r * tierWeight r.tier) })

/-- Descending ordering by weighted score. -/
def mtGe (a b : TRec) : Prop := b.weighted_score ≤ a.weighted_score

instance : DecidableRel mtGe := fun _ _ =>
  inferInstanceAs (Decidable (_ ≤ _))

instance : IsTotal TRec mtGe := ⟨fun _ _ => le_total _ _⟩

instance : IsTrans TRec mtGe := ⟨fun _ _ _ h1 h2 => le_trans h2 h1⟩

/-- `_authority_dedup`: both branches append the result unchanged. -/
def authorityDedup (rs : List TRec) : List TRec :=
  rs.foldl (fun acc r => if r.tier = 1 then acc ++ [r] else acc ++ [r]) []

/-- `multi_tier_search` over both tiers, given the two per-tier result lists:
tag tiers, weight, sort by descending weighted score, dedup, truncate. -/
def multiTierSearch (t1 t2 : List TRec) (maxResults : Nat) : List TRec :=
  let allResults := (t1.map (fun r => { r with tier := 1 })) ++
    (t2.map (fun r => { r with tier := 2 }))
  let weighted := applyWeights allResults
  let sorted := weighted.insertionSort mtGe
  (authorityDedup sorted).take maxResults

lemma authorityDedup_eq (rs : List TRec) : authorityDedup rs = rs := by
  have h : ∀ (l : List TRec) (acc : List TRec),
      l.foldl (fun acc r => if r.tier = 1 then acc ++ [r] else acc ++ [r]) acc = acc ++ l := by
    intro l
    induction l with
    | nil => intro acc; simp
    | cons a l ih =>
        intro acc
        rw [List.foldl_cons, ite_self, ih]
        simp
  have h0 := h rs []
  rw [List.nil_append] at h0
  exact h0

lemma round6_of_microunits {q : ℚ} {n : ℤ} (h : q * 1000000 = (n : ℚ)) :
    round6 q = q := by
  unfold round6
  rw [h, round_intCast]
  rw [div_eq_iff (by norm_num : (1000000 : ℚ) ≠ 0)]
  exact h.symm

lemma tierWeight_cases (t : Nat) : tierWeight t = 85/100 ∨ tierWeight t = 1 := by
  unfold tierWeight
  split
  · exact Or.inl rfl
  · split
    · exact Or.inr rfl
    · exact Or.inr rfl

/-! ## C2: weighted score = confidence × tier weight; sorted, truncated -/

/-- C2: over both tiers of `multi_tier_search` — when every input record
carries a `confidence` that is a 4-decimal value (as produced by every
formatter: `round(score, 4)` or `round(1/(1+distance), 4)`) — every output
record's `weighted_score` equals its base confidence times the fixed tier
weight (0.85 for tier 1, 1.0 for tier 2), and the merged output is sorted by
descending weighted score and truncated to `max_results`. -/
theorem multi_tier_weighted_score (t1 t2 : List TRec) (cap : Nat)
    (hconf : ∀ r ∈ t1 ++ t2, ∃ n : ℤ, r.confidence = some ((n : ℚ) / 10000)) :
    (∀ r ∈ multiTierSearch t1 t2 cap,
       ∃ c, r.confidence = some c ∧ r.weighted_score = c * tierWeight r.tier) ∧
    List.Sorted mtGe (multiTierSearch t1 t2 cap) ∧
    (multiTierSearch t1 t2 cap).length ≤ cap := by
  refine ⟨?_, ?_, ?_⟩
  · intro r hr
    unfold multiTierSearch at hr
    simp only [authorityDedup_eq] at hr
    have hr1 := List.take_subset _ _ hr
    rw [List.mem_insertionSort] at hr1
    unfold applyWeights at hr1
    simp only [List.mem_map, List.mem_append] at hr1
    obtain ⟨r0, hr0, rfl⟩ := hr1
    have hconf0 : ∃ n : ℤ, r0.confidence = some ((n : ℚ) / 10000) := by
      rcases hr0 with h0 | h0 <;> obtain ⟨orig, horig, rfl⟩ := h0
      · exact hconf orig (List.mem_append_left _ horig)
      · exact hconf orig (List.mem_append_right _ horig)
    obtain ⟨n, hn⟩ := hconf0
    refine ⟨(n : ℚ) / 10000, hn, ?_⟩
    have hbase : baseScore r0 = (n : ℚ) / 10000 := by
      unfold baseScore
      rw [hn]
      rfl
    show round6 (baseScore r0 * tierWeight r0.tier) = (n : ℚ) / 10000 * tierWeight r0.tier
    rw [hbase]
    rcases tierWeight_cases r0.tier with hw | hw <;> rw [hw]
    · exact round6_of_microunits (n := n * 85) (by push_cast; ring)
    · exact round6_of_microunits (n := n * 100) (by push_cast; ring)
  · unfold multiTierSearch
    simp only [authorityDedup_eq]
    exact List.Pairwise.sublist (List.take_sublist _ _) (List.sorted_insertionSort _ _)
  · unfold multiTierSearch
    simp only [authorityDedup_eq]
    exact List.length_take_le _ _

/-- Witness for `multi_tier_weighted_score`, realising the spec's end-to-end
scenario: tier-1 top confidence 0.9 and tier-2 top confidence 0.8 — the
tier-2 item (weighted 0.8) ranks above the tier-1 item (weighted 0.765). -/
theorem multi_tier_weighted_score_witness :
    (∃ c : ℚ, (some ((8 : ℚ)/10) : Option ℚ) = some c ∧ (8 : ℚ)/10 = c * tierWeight 2) ∧
    (multiTierSearch [⟨"g1", some (9/10), none, 1, 0⟩] [⟨"p1", some (8/10), none, 2, 0⟩]
        20).map (fun r => (r.id, r.weighted_score)) =
      [("p1", (8 : ℚ)/10), ("g1", (765 : ℚ)/1000)] := by
  constructor
  · have h := (multi_tier_weighted_score [⟨"g1", some (9/10), none, 1, 0⟩]
        [⟨"p1", some (8/10), none, 2, 0⟩] 20
        (by
          intro r hr
          simp only [List.cons_append, List.nil_append, List.mem_cons,
            List.not_mem_nil, or_false] at hr
          rcases hr with rfl | rfl
          · exact ⟨9000, by norm_num⟩
          · exact ⟨8000, by norm_num⟩)).1
        ⟨"p1", some (8/10), none, 2, 8/10⟩
        (by norm_num [multiTierSearch, applyWeights, authorityDedup, baseScore, tierWeight,
            round6, mtGe, List.insertionSort, List.orderedInsert, List.foldl])
    simpa using h
  · norm_num [multiTierSearch, applyWeights, authorityDedup, baseScore, tierWeight,
      round6, mtGe, List.insertionSort, List.orderedInsert, List.foldl]

/-! ## C3: a rank-0-shared item beats any single-list item -/

lemma listContrib_nonneg (k : Nat) :
    ∀ (r : Nat) (l : List String) (id : String), 0 ≤ listContrib k r l id := by
  intro r l
  induction l generalizing r with
  | nil => intro id; simp [listContrib]
  | cons a l ih =>
      intro id
      show 0 ≤ (if a = id then (1 : ℚ) / ((k : ℚ) + (r : ℚ) + 1) else 0) +
        listContrib k (r + 1) l id
      have h1 : (0 : ℚ) ≤ if a = id then (1 : ℚ) / ((k : ℚ) + (r : ℚ) + 1) else 0 := by
        split
        · positivity
        · exact le_refl 0
      linarith [ih (r + 1) id]

lemma listContrib_not_mem (k : Nat) {id : String} :
    ∀ (r : Nat) (l : List String), id ∉ l → listContrib k r l id = 0 := by
  intro r l
  induction l generalizing r with
  | nil => intro _; simp [listContrib]
  | cons a l ih =>
      intro hid
      show (if a = id then (1 : ℚ) / ((k : ℚ) + (r : ℚ) + 1) else 0) +
        listContrib k (r + 1) l id = 0
      rw [if_neg (fun h : a = id => hid (h ▸ List.mem_cons_self a l)),
        ih (r + 1) (fun h => hid (List.mem_cons_of_mem _ h))]
      simp

/-- With no duplicate ids, the total contribution of one list is at most the
contribution of its first rank. -/
lemma listContrib_le (k : Nat) :
    ∀ (r : Nat) (l : List String) (id : String), l.Nodup →
      listContrib k r l id ≤ 1 / ((k : ℚ) + (r : ℚ) + 1) := by
  intro r l
  induction l generalizing r with
  | nil =>
      intro id _
      show (0 : ℚ) ≤ _
      positivity
  | cons a l ih =>
      intro id hnd
      rw [List.nodup_cons] at hnd
      show (if a = id then (1 : ℚ) / ((k : ℚ) + (r : ℚ) + 1) else 0) +
        listContrib k (r + 1) l id ≤ 1 / ((k : ℚ) + (r : ℚ) + 1)
      by_cases ha : a = id
      · rw [if_pos ha, listContrib_not_mem k (r + 1) l (ha ▸ hnd.1)]
        simp
      · rw [if_neg ha]
        have h1 := ih (r + 1) id hnd.2
        have h2 : (1 : ℚ) / ((k : ℚ) + ((r : ℚ) + 1) + 1) ≤ 1 / ((k : ℚ) + (r : ℚ) + 1) := by
          apply one_div_le_one_div_of_le
          · positivity
          · linarith
        rw [show ((r : ℚ) + 1 : ℚ) = ((r + 1 : Nat) : ℚ) by push_cast; ring] at h2
        linarith

lemma listContrib_head (k : Nat) (x : String) (l : List String)
    (hnd : (x :: l).Nodup) :
    listContrib k 0 (x :: l) x = 1 / ((k : ℚ) + 0 + 1) := by
  rw [List.nodup_cons] at hnd
  show (if x = x then (1 : ℚ) / ((k : ℚ) + (0 : ℚ) + 1) else 0) +
    listContrib k (0 + 1) l x = 1 / ((k : ℚ) + 0 + 1)
  rw [if_pos rfl, listContrib_not_mem k (0 + 1) l hnd.1]
  ring

/-- C3: for any constant `k` and two non-empty ranked lists (with no
duplicate ids within a list) that share item `x` at rank 0, the fused RRF
score of `x` strictly exceeds the fused score of any item `y` that occurs in
only one of the two lists. -/
theorem rrf_rank0_shared_beats_single_list (k : Nat) (kaIds vaIds : List String)
    (x y : String)
    (hka : kaIds.head? = some x) (hva : vaIds.head? = some x)
    (hknd : kaIds.Nodup) (hvnd : vaIds.Nodup)
    (hy : (y ∈ kaIds ∧ y ∉ vaIds) ∨ (y ∈ vaIds ∧ y ∉ kaIds)) :
    rrfScore k kaIds vaIds y < rrfScore k kaIds vaIds x := by
  obtain ⟨ka', rfl⟩ : ∃ t, kaIds = x :: t := by
    cases kaIds with
    | nil => simp at hka
    | cons a t =>
        have ha : a = x := by simpa using hka
        exact ⟨t, by rw [ha]⟩
  obtain ⟨va', rfl⟩ : ∃ t, vaIds = x :: t := by
    cases vaIds with
    | nil => simp at hva
    | cons a t =>
        have : a = x := by simpa using hva
        exact ⟨t, by rw [this]⟩
  have hxk := listContrib_head k x ka' hknd
  have hxv := listContrib_head k x va' hvnd
  have hpos : (0 : ℚ) < 1 / ((k : ℚ) + 0 + 1) := by positivity
  unfold rrfScore
  rw [hxk, hxv]
  rcases hy with ⟨hyk, hyv⟩ | ⟨hyv, hyk⟩
  · have h1 := listContrib_le k 0 (x :: ka') y hknd
    have h2 := listContrib_not_mem k 0 (x :: va') hyv
    rw [h2]
    linarith
  · have h1 := listContrib_le k 0 (x :: va') y hvnd
    have h2 := listContrib_not_mem k 0 (x :: ka') hyk
    rw [h2]
    linarith

/-- Witness for `rrf_rank0_shared_beats_single_list` with `k = 60`:
`x` at rank 0 of both lists scores `2/61`, while `y`, present only in the
keyword list, scores `1/62 < 2/61`. -/
theorem rrf_rank0_shared_beats_single_list_witness :
    rrfScore 60 ["x", "y"] ["x"] "y" < rrfScore 60 ["x", "y"] ["x"] "x" := by
  exact rrf_rank0_shared_beats_single_list 60 ["x", "y"] ["x"] "x" "y"
    (by simp) (by simp) (by simp) (by simp)
    (Or.inl ⟨by simp, by simp⟩)

/-! ## C9: a hybrid-fused item is weighted by its vector-path confidence -/

lemma mem_firstDedupAux :
    ∀ (l seen : List String) (x : String),
      x ∈ firstDedupAux l seen ↔ (x ∈ l ∧ x ∉ seen) := by
  intro l
  induction l with
  | nil => intro seen x; simp [firstDedupAux]
  | cons a l ih =>
      intro seen x
      unfold firstDedupAux
      by_cases hc : seen.contains a
      · rw [if_pos hc]
        have ha : a ∈ seen := by simpa using hc
        rw [ih seen x]
        constructor
        · rintro ⟨hx, hs⟩
          exact ⟨List.mem_cons_of_mem _ hx, hs⟩
        · rintro ⟨hx, hs⟩
          rcases List.mem_cons.mp hx with rfl | hx
          · exact absurd ha hs
          · exact ⟨hx, hs⟩
      · rw [if_neg hc]
        have ha : a ∉ seen := by simpa using hc
        rw [List.mem_cons, ih (a :: seen) x]
        constructor
        · rintro (rfl | ⟨hx, hs⟩)
          · exact ⟨List.mem_cons_self _ _, ha⟩
          · exact ⟨List.mem_cons_of_mem _ hx,
              fun h => hs (List.mem_cons_of_mem _ h)⟩
        · rintro ⟨hx, hs⟩
          rcases List.mem_cons.mp hx with rfl | hx
          · exact Or.inl rfl
          · by_cases hax : x = a
            · exact Or.inl hax
            · exact Or.inr ⟨hx, fun h => by
                rcases List.mem_cons.mp h with h' | h'
                · exact hax h'
                · exact hs h'⟩

lemma mem_firstDedup {l : List String} {x : String} :
    x ∈ firstDedup l ↔ x ∈ l := by
  unfold firstDedup
  rw [mem_firstDedupAux]
  simp

/-- With no duplicate ids, filtering a record list by a member's id yields
exactly that member. -/
lemma filter_id_eq_single {va : List TRec} {v : TRec}
    (hnd : (va.map (fun r => r.id)).Nodup) (hv : v ∈ va) :
    va.filter (fun r => decide (r.id = v.id)) = [v] := by
  induction va with
  | nil => simp at hv
  | cons a l ih =>
      simp only [List.map_cons, List.nodup_cons, List.mem_map] at hnd
      rcases List.mem_cons.mp hv with rfl | hv'
      · rw [List.filter_cons_of_pos (by simp)]
        have : l.filter (fun r => decide (r.id = v.id)) = [] := by
          rw [List.filter_eq_nil_iff]
          intro b hb
          simp only [decide_eq_true_eq]
          exact fun hid => hnd.1 ⟨b, hb, hid⟩
        rw [this]
      · have hne : ¬ (a.id = v.id) := by
          intro hid
          exact hnd.1 ⟨v, hv', (hid.symm : v.id = a.id)⟩
        rw [List.filter_cons_of_neg (by simpa using hne)]
        exact ih hnd.2 hv'

/-- C9: in `_rrf_fuse`, the fused entry of an item that appears in both the
keyword and the vector list is built from the *vector* record (the last list
written into `result_map`), so its `confidence` is the vector-path
confidence; and since `multi_tier_search` takes `base_score` from the
`confidence` field whenever it is present, the cross-tier weighting uses
that vector confidence, not the within-tier `rrf_score`. -/
theorem rrf_fuse_weights_vector_confidence (k : Nat) (ka va : List TRec) (v : TRec)
    (hv : v ∈ va) (hnd : (va.map (fun r => r.id)).Nodup)
    (hk : v.id ∈ ka.map (fun r => r.id)) :
    ∃ r ∈ rrfFuse k ka va, r.id = v.id ∧ r.confidence = v.confidence ∧
      r.rrf_score = some (rrfScore k (ka.map (fun r => r.id))
        (va.map (fun r => r.id)) v.id) ∧
      (∀ c, v.confidence = some c → baseScore r = c) := by
  have hlast : lastRec (ka ++ va) v.id = some v := by
    unfold lastRec
    rw [List.filter_append, filter_id_eq_single hnd hv, List.getLast?_concat]
  refine ⟨{ v with rrf_score := some (rrfScore k (ka.map (fun r => r.id))
      (va.map (fun r => r.id)) v.id) }, ?_, rfl, rfl, rfl, ?_⟩
  · unfold rrfFuse
    rw [List.mem_insertionSort, List.mem_filterMap]
    refine ⟨v.id, ?_, ?_⟩
    · rw [mem_firstDedup]
      exact List.mem_append_left _ hk
    · rw [hlast]
      rfl
  · intro c hc
    unfold baseScore
    rw [show ({ v with rrf_score := some (rrfScore k (ka.map (fun r => r.id))
        (va.map (fun r => r.id)) v.id) } : TRec).confidence = v.confidence from rfl, hc]
    rfl

/-- Witness for `rrf_fuse_weights_vector_confidence`: the id `x` appears in
the keyword list with confidence 1/2 and in the vector list with confidence
3/4; the fused entry carries the vector confidence 3/4. -/
theorem rrf_fuse_weights_vector_confidence_witness :
    ∃ r ∈ rrfFuse 60 [⟨"x", some (1/2), none, 2, 0⟩] [⟨"x", some (3/4), none, 2, 0⟩],
      r.id = "x" ∧ r.confidence = some ((3 : ℚ)/4) ∧
      r.rrf_score = some (rrfScore 60 ["x"] ["x"] "x") ∧
      (∀ c, (some ((3 : ℚ)/4) : Option ℚ) = some c → baseScore r = c) := by
  have h := rrf_fuse_weights_vector_confidence 60
    [⟨"x", some (1/2), none, 2, 0⟩] [⟨"x", some (3/4), none, 2, 0⟩]
    ⟨"x", some (3/4), none, 2, 0⟩ (by simp) (by simp) (by simp)
  simpa using h

/-! ## C5: the context assembler counts every capped candidate -/

/-- A result record as consumed by `format_context`: only the id (for role
lookup) and the content (for the character cost) matter for the counts. -/
structure CPara where
  id : String
  content : String
deriving DecidableEq

/-- `CHARS_PER_TOKEN = 4`. -/
def CHARS_PER_TOKEN : Nat := 4

/-- `ROLE_CAPS = {"primary": 999, "supporting": 15, "context": 5}` (the
constant is only consulted for these three roles). -/
def roleCap (role : String) : Nat :=
  if role = "primary" then 999 else if role = "supporting" then 15 else 5

/-- `role = role_map.get(pid, "primary")`. -/
def lookupRole (roles : List (String × String)) (pid : String) : String :=
  match roles.lookup pid with
  | some r => r
  | none => "primary"

/-- `if role not in grouped: role = "primary"`. -/
def normRole (r : String) : String :=
  if r = "primary" ∨ r = "supporting" ∨ r = "context" then r else "primary"

/-- The group of paragraphs assigned to a role, in input order. -/
def groupRole (paragraphs : List CPara) (roles : List (String × String))
    (role : String) : List CPara :=
  paragraphs.filter (fun p => decide (normRole (lookupRole roles p.id) = role))

/-- The role group after applying the role cap (`grouped[role][:cap]`). -/
def cappedGroup (paragraphs : List CPara) (roles : List (String × String))
    (role : String) : List CPara :=
  (groupRole paragraphs roles role).take (roleCap role)

/-- The greedy budget loop shared by `_format_flat` and one role group of
`_format_role_grouped`, reduced to its `(included, excluded)` counters: each
item costs `len(content) + 200` characters; an item that does not fit is
excluded and counted — except that a first item is always included even when
it exceeds the budget. -/
def budgetFill (avail : ℤ) : List CPara → Nat → ℤ → Nat → (Nat × Nat)
  | [], inc, _, exc => (inc, exc)
  | p :: rest, inc, used, exc =>
      if used + ((p.content.length : ℤ) + 200) > avail then
        if inc = 0 then
          budgetFill avail rest (inc + 1) (used + ((p.content.length : ℤ) + 200)) exc
        else budgetFill avail rest inc used (exc + 1)
      else budgetFill avail rest (inc + 1) (used + ((p.content.length : ℤ) + 200)) exc

/-- `_format_flat`, reduced to its `(included_count, excluded_count)`. -/
def formatFlat (paragraphs : List CPara) (roles : List (String × String))
    (maxTokens : Nat) : Nat × Nat :=
  budgetFill ((maxTokens : ℤ) * (CHARS_PER_TOKEN : ℤ) - 200)
    (cappedGroup paragraphs roles "primary" ++
      cappedGroup paragraphs roles "supporting" ++
      cappedGroup paragraphs roles "context") 0 0 0

/-- Python `int(...)` on a rational: truncation toward zero. -/
def ratTrunc (q : ℚ) : ℤ := if 0 ≤ q then ⌊q⌋ else -⌊-q⌋

/-- One role sub-budget of `_format_role_grouped`:
`int(available_chars * fraction)`. -/
def roleBudget (maxTokens : Nat) (fracNum : Nat) : ℤ :=
  ratTrunc ((((maxTokens : ℤ) * (CHARS_PER_TOKEN : ℤ) - 300 : ℤ) : ℚ) * ((fracNum : ℚ) / 100))

/-- `_format_role_grouped`, reduced to its counts: 60/30/10 sub-budgets over
`max_tokens * 4 - 300` available characters, with a shared excluded counter
threaded through the three role groups. -/
def formatRoleGrouped (paragraphs : List CPara) (roles : List (String × String))
    (maxTokens : Nat) : Nat × Nat :=
  let rP := budgetFill (roleBudget maxTokens 60)
    (cappedGroup paragraphs roles "primary") 0 0 0
  let rS := budgetFill (roleBudget maxTokens 30)
    (cappedGroup paragraphs roles "supporting") 0 0 rP.2
  let rC := budgetFill (roleBudget maxTokens 10)
    (cappedGroup paragraphs roles "context") 0 0 rS.2
  (rP.1 + rS.1 + rC.1, rC.2)

/-- `format_context`, reduced to its counts (empty input short-circuits to a
"no results" document with zero counts). -/
def formatContext (paragraphs : List CPara) (roles : List (String × String))
    (maxTokens : Nat) (groupByRole : Bool) : Nat × Nat :=
  if paragraphs = [] then (0, 0)
  else if groupByRole then formatRoleGrouped paragraphs roles maxTokens
  else formatFlat paragraphs roles maxTokens

/-- Every item handed to the budget loop ends up either included or counted
as excluded. -/
lemma budgetFill_count (avail : ℤ) :
    ∀ (items : List CPara) (inc : Nat) (used : ℤ) (exc : Nat),
      (budgetFill avail items inc used exc).1 +
        (budgetFill avail items inc used exc).2 = inc + exc + items.length := by
  intro items
  induction items with
  | nil => intro inc used exc; simp [budgetFill]
  | cons p rest ih =>
      intro inc used exc
      unfold budgetFill
      by_cases h1 : used + ((p.content.length : ℤ) + 200) > avail
      · rw [if_pos h1]
        by_cases h2 : inc = 0
        · rw [if_pos h2, ih]
          simp only [List.length_cons]
          omega
        · rw [if_neg h2, ih]
          simp only [List.length_cons]
          omega
      · rw [if_neg h1, ih]
        simp only [List.length_cons]
        omega

lemma formatFlat_counts (paragraphs : List CPara) (roles : List (String × String))
    (maxTokens : Nat) :
    (formatFlat paragraphs roles maxTokens).1 + (formatFlat paragraphs roles maxTokens).2 =
      (cappedGroup paragraphs roles "primary").length +
      (cappedGroup paragraphs roles "supporting").length +
      (cappedGroup paragraphs roles "context").length := by
  unfold formatFlat
  rw [budgetFill_count]
  simp only [List.length_append]
  omega

lemma formatRoleGrouped_counts (paragraphs : List CPara) (roles : List (String × String))
    (maxTokens : Nat) :
    (formatRoleGrouped paragraphs roles maxTokens).1 +
      (formatRoleGrouped paragraphs roles maxTokens).2 =
      (cappedGroup paragraphs roles "primary").length +
      (cappedGroup paragraphs roles "supporting").length +
      (cappedGroup paragraphs roles "context").length := by
  simp only [formatRoleGrouped]
  have hP := budgetFill_count (roleBudget maxTokens 60)
    (cappedGroup paragraphs roles "primary") 0 0 0
  have hS := budgetFill_count (roleBudget maxTokens 30)
    (cappedGroup paragraphs roles "supporting") 0 0
    (budgetFill (roleBudget maxTokens 60) (cappedGroup paragraphs roles "primary") 0 0 0).2
  have hC := budgetFill_count (roleBudget maxTokens 10)
    (cappedGroup paragraphs roles "context") 0 0
    (budgetFill (roleBudget maxTokens 30) (cappedGroup paragraphs roles "supporting") 0 0
      (budgetFill (roleBudget maxTokens 60)
        (cappedGroup paragraphs roles "primary") 0 0 0).2).2
  omega

/-- The total candidate count after the caps as the claim words them —
primary *uncapped*, supporting capped at 15, context capped at 5.  (This
definition follows the claim's wording, for comparison: the code's
`ROLE_CAPS` instead caps primary at 999.) -/
def specCapsTotal (paragraphs : List CPara) (roles : List (String × String)) : Nat :=
  (groupRole paragraphs roles "primary").length +
  min (groupRole paragraphs roles "supporting").length 15 +
  min (groupRole paragraphs roles "context").length 5

/-- C5 counterexample: with 1000 primary records, flat mode reports
`included + excluded = 999`, which differs from the claim's cap description
(`primary uncapped`) total of 1000: the code caps primary at 999. -/
theorem format_context_primary_cap_counterexample :
    (formatContext (List.replicate 1000 ⟨"p", ""⟩) [] 100000 false).1 +
      (formatContext (List.replicate 1000 ⟨"p", ""⟩) [] 100000 false).2 = 999 ∧
    specCapsTotal (List.replicate 1000 ⟨"p", ""⟩) [] = 1000 ∧
    (999 : Nat) ≠ 1000 := by
  have hgP : groupRole (List.replicate 1000 (⟨"p", ""⟩ : CPara)) [] "primary" =
      List.replicate 1000 (⟨"p", ""⟩ : CPara) := by
    unfold groupRole
    apply List.filter_eq_self.mpr
    intro a _
    simp [lookupRole, normRole]
  have hgS : groupRole (List.replicate 1000 (⟨"p", ""⟩ : CPara)) [] "supporting" = [] := by
    unfold groupRole
    rw [List.filter_eq_nil_iff]
    intro a _
    simp [lookupRole, normRole]
  have hgC : groupRole (List.replicate 1000 (⟨"p", ""⟩ : CPara)) [] "context" = [] := by
    unfold groupRole
    rw [List.filter_eq_nil_iff]
    intro a _
    simp [lookupRole, normRole]
  refine ⟨?_, ?_, by decide⟩
  · have hne : (List.replicate 1000 (⟨"p", ""⟩ : CPara)) ≠ [] := by
      intro h
      have h2 := congrArg List.length h
      rw [List.length_replicate, List.length_nil] at h2
      exact absurd h2 (by omega)
    unfold formatContext
    rw [if_neg hne, if_neg (by simp : ¬ (false = true))]
    rw [formatFlat_counts]
    unfold cappedGroup
    rw [hgP, hgS, hgC, List.take_nil, List.take_nil]
    rw [show roleCap "primary" = 999 from rfl]
    rw [List.length_take, List.length_replicate]
    simp only [List.length_nil]
    omega
  · unfold specCapsTotal
    rw [hgP, hgS, hgC]
    simp only [List.length_nil, List.length_replicate]
    omega

/-- C5 (amended): in both flat and role-grouped mode,
`included_count + excluded_count` equals the total number of candidate
records after the per-role input caps as implemented — primary capped at
999, supporting at 15, context at 5 — so no record surviving the caps is
dropped without being counted. -/
theorem format_context_counts_amended (paragraphs : List CPara)
    (roles : List (String × String)) (maxTokens : Nat) (groupByRole : Bool) :
    (formatContext paragraphs roles maxTokens groupByRole).1 +
      (formatContext paragraphs roles maxTokens groupByRole).2 =
      (cappedGroup paragraphs roles "primary").length +
      (cappedGroup paragraphs roles "supporting").length +
      (cappedGroup paragraphs roles "context").length := by
  unfold formatContext
  by_cases hnil : paragraphs = []
  · rw [if_pos hnil]
    subst hnil
    simp [cappedGroup, groupRole]
  · rw [if_neg hnil]
    cases groupByRole with
    | true => rw [if_pos rfl]; exact formatRoleGrouped_counts paragraphs roles maxTokens
    | false => rw [if_neg (by simp)]; exact formatFlat_counts paragraphs roles maxTokens

/-! ## Text utilities shared by verification and query expansion -/

/-- The regex `\s` whitespace class (ASCII). -/
def isSpaceChar (c : Char) : Bool :=
  decide (c = ' ' ∨ c = '\t' ∨ c = '\n' ∨ c = '\r' ∨ c = '\x0b' ∨ c = '\x0c')

/-- The regex `\w` word-character class (ASCII letters, digits, underscore). -/
def isWordChar (c : Char) : Bool := c.isAlphanum || (c == '_')

/-- Python `str.lower()` (ASCII). -/
def toLowerStr (s : List Char) : List Char := s.map Char.toLower

/-- Python `str.strip()`. -/
def pyStrip (s : List Char) : List Char :=
  ((s.dropWhile isSpaceChar).reverse.dropWhile isSpaceChar).reverse

/-- Maximal runs of word characters in a string — the candidate matches of a
`\b\w+\b`-style pattern before any length filter. -/
def wordRunsAux : List Char → List Char → List (List Char)
  | [], cur => if cur = [] then [] else [cur.reverse]
  | c :: rest, cur =>
      if isWordChar c then wordRunsAux rest (c :: cur)
      else if cur = [] then wordRunsAux rest []
      else cur.reverse :: wordRunsAux rest []

def wordRuns (s : List Char) : List (List Char) := wordRunsAux s []

/-- Whether the character following a match of `pat` (if any) is not a word
character — the trailing `\b` of a search pattern. -/
def boundaryAfter (pat s : List Char) : Bool :=
  match s.drop pat.length with
  | [] => true
  | c :: _ => !(isWordChar c)

/-- `containsBounded pat s atB` scans `s` for an occurrence of `pat` flanked
by word boundaries; `atB` records whether the current position follows a
non-word character (or the start of the string). -/
def containsBounded (pat : List Char) : List Char → Bool → Bool
  | [], _ => false
  | c :: rest, atB =>
      (atB && pat.isPrefixOf (c :: rest) && boundaryAfter pat (c :: rest)) ||
        containsBounded pat rest (!(isWordChar c))

/-- `re.search(r"\b<pat>\b", s)` for a pattern made of word characters and
single literal spaces (all six contradiction patterns have this shape). -/
def reSearch (pat : String) (s : List Char) : Bool :=
  containsBounded pat.toList s true

/-- A bounded occurrence of `pat1 ++ [c] ++ t` (with `c` a non-word
character) yields a bounded occurrence of `pat1` at the same position. -/
lemma containsBounded_append_right {pat1 : List Char} {c : Char} {t : List Char}
    (hc : isWordChar c = false) :
    ∀ (s : List Char) (b : Bool),
      containsBounded (pat1 ++ c :: t) s b = true → containsBounded pat1 s b = true := by
  intro s
  induction s with
  | nil => intro b h; simp [containsBounded] at h
  | cons a rest ih =>
      intro b h
      unfold containsBounded at h ⊢
      rw [Bool.or_eq_true] at h ⊢
      rcases h with h | h
      · left
        rw [Bool.and_eq_true, Bool.and_eq_true] at h
        obtain ⟨⟨hb, hpre⟩, _⟩ := h
        rw [ List.isPrefixOf_iff_prefix] at hpre
        obtain ⟨tail, htail⟩ := hpre
        have hs : a :: rest = pat1 ++ (c :: (t ++ tail)) := by
          rw [← htail]; simp
        rw [Bool.and_eq_true, Bool.and_eq_true]
        refine ⟨⟨hb, ?_⟩, ?_⟩
        · rw [ List.isPrefixOf_iff_prefix]
          exact ⟨c :: (t ++ tail), hs.symm⟩
        · unfold boundaryAfter
          rw [hs, List.drop_left]
          simpa using hc
      · exact Or.inr (ih _ h)

/-- Soundness: a successful bounded search decomposes the string into a
boundary position followed by a bounded match. -/
lemma containsBounded_sound {pat : List Char} :
    ∀ (s : List Char) (b : Bool), containsBounded pat s b = true →
      ∃ u v, s = u ++ v ∧
        ((u = [] ∧ b = true) ∨ ∃ u' c, u = u' ++ [c] ∧ isWordChar c = false) ∧
        pat.isPrefixOf v = true ∧ boundaryAfter pat v = true := by
  intro s
  induction s with
  | nil => intro b h; simp [containsBounded] at h
  | cons a rest ih =>
      intro b h
      unfold containsBounded at h
      rw [Bool.or_eq_true] at h
      rcases h with h | h
      · rw [Bool.and_eq_true, Bool.and_eq_true] at h
        obtain ⟨⟨hb, hpre⟩, hafter⟩ := h
        exact ⟨[], a :: rest, rfl, Or.inl ⟨rfl, hb⟩, hpre, hafter⟩
      · obtain ⟨u, v, hs, hcond, hpre, hafter⟩ := ih _ h
        refine ⟨a :: u, v, by rw [List.cons_append, hs], ?_, hpre, hafter⟩
        rcases hcond with ⟨rfl, hb2⟩ | ⟨u', c, rfl, hcw⟩
        · exact Or.inr ⟨[], a, by simp, by simpa using hb2⟩
        · exact Or.inr ⟨a :: u', c, by simp, hcw⟩

/-- Completeness: a bounded match at a boundary position is found by the
scan. -/
lemma containsBounded_complete {pat : List Char} (hne : pat ≠ []) :
    ∀ (u v : List Char) (b : Bool),
      ((u = [] ∧ b = true) ∨ ∃ u' c, u = u' ++ [c] ∧ isWordChar c = false) →
      pat.isPrefixOf v = true → boundaryAfter pat v = true →
      containsBounded pat (u ++ v) b = true := by
  intro u
  induction u with
  | nil =>
      intro v b hcond hpre hafter
      rcases hcond with ⟨_, rfl⟩ | ⟨u', c, habs, _⟩
      · cases v with
        | nil =>
            rw [ List.isPrefixOf_iff_prefix] at hpre
            exact absurd (List.prefix_nil.mp hpre) hne
        | cons x xs =>
            show containsBounded pat (x :: xs) true = true
            unfold containsBounded
            rw [Bool.or_eq_true]
            left
            rw [Bool.and_eq_true, Bool.and_eq_true]
            exact ⟨⟨rfl, hpre⟩, hafter⟩
      · exact absurd habs (by simp)
  | cons a u' ih =>
      intro v b hcond hpre hafter
      show containsBounded pat (a :: (u' ++ v)) b = true
      unfold containsBounded
      rw [Bool.or_eq_true]
      right
      refine ih v (!(isWordChar a)) ?_ hpre hafter
      rcases hcond with ⟨habs, _⟩ | ⟨u'', c, heq, hcw⟩
      · exact absurd habs (by simp)
      · cases u'' with
        | nil =>
            have h2 : a = c ∧ u' = [] := by
              constructor
              · exact (List.cons_eq_cons.mp (by simpa using heq)).1
              · exact (List.cons_eq_cons.mp (by simpa using heq)).2
            obtain ⟨rfl, rfl⟩ := h2
            exact Or.inl ⟨rfl, by simp [hcw]⟩
        | cons d u3 =>
            have h2 : a = d ∧ u' = u3 ++ [c] := by
              constructor
              · exact (List.cons_eq_cons.mp (by simpa using heq)).1
              · exact (List.cons_eq_cons.mp (by simpa using heq)).2
            obtain ⟨rfl, hu⟩ := h2
            exact Or.inr ⟨u3, c, hu, hcw⟩

/-- A bounded occurrence of `t ++ [c] ++ pat1` (with `c` a non-word
character) yields a bounded occurrence of `pat1` further right. -/
lemma containsBounded_append_left {pat1 : List Char} {c : Char} {t : List Char}
    (hc : isWordChar c = false) (hne : pat1 ≠ []) :
    ∀ (s : List Char) (b : Bool),
      containsBounded (t ++ c :: pat1) s b = true → containsBounded pat1 s b = true := by
  intro s b h
  obtain ⟨u, v, rfl, hcond, hpre, hafter⟩ := containsBounded_sound s b h
  rw [ List.isPrefixOf_iff_prefix] at hpre
  obtain ⟨tail, htail⟩ := hpre
  have hv : v = (t ++ [c]) ++ (pat1 ++ tail) := by rw [← htail]; simp
  have hafter1 : boundaryAfter pat1 (pat1 ++ tail) = true := by
    have hlen : ((t ++ [c]) ++ pat1).length = (t ++ c :: pat1).length := by
      simp
    unfold boundaryAfter at hafter ⊢
    rw [List.drop_left]
    rw [hv, show (t ++ [c]) ++ (pat1 ++ tail) = ((t ++ [c]) ++ pat1) ++ tail by simp,
      ← hlen, List.drop_left] at hafter
    exact hafter
  have hgoal : u ++ v = (u ++ (t ++ [c])) ++ (pat1 ++ tail) := by
    rw [hv]; simp
  rw [hgoal]
  refine containsBounded_complete hne (u ++ (t ++ [c])) (pat1 ++ tail) b ?_ ?_ hafter1
  · exact Or.inr ⟨u ++ t, c, by simp, hc⟩
  · rw [ List.isPrefixOf_iff_prefix]
    exact ⟨tail, rfl⟩

/-! ## C10: contradiction detection -/

/-- A row of `ISAParagraph` as consulted by `contradiction_check`. -/
structure VPara where
  id : String
  content : String
  isa_number : String
deriving DecidableEq

/-- `CONTRADICTION_PATTERNS`: the six opposing-phrase pairs (each searched
with surrounding `\b` boundaries). -/
def CONTRADICTION_PATTERNS : List (String × String) :=
  [("shall", "shall not"), ("must", "must not"), ("required", "not required"),
   ("prohibited", "permitted"), ("mandatory", "optional"), ("always", "never")]

/-- All unordered pairs `(i, j)` with `i < j`, in scan order. -/
def allPairs : List VPara → List (VPara × VPara)
  | [] => []
  | p :: rest => (rest.map (fun q => (p, q))) ++ allPairs rest

/-- The patterns flagged for one pair: one record matches the positive
pattern and the other the negative one (in either orientation), and both
belong to the same standard. -/
def pairContradictions (p1 p2 : VPara) : Nat :=
  (CONTRADICTION_PATTERNS.filter (fun pp =>
    ((reSearch pp.1 (toLowerStr p1.content.toList) &&
        reSearch pp.2 (toLowerStr p2.content.toList)) ||
      (reSearch pp.2 (toLowerStr p1.content.toList) &&
        reSearch pp.1 (toLowerStr p2.content.toList))) &&
    decide (p1.isa_number = p2.isa_number))).length

/-- `contradiction_check`, reduced to `(contradiction_count, passed)`; the
pair scan is capped at 100 pairs, and fewer than two records pass
trivially. -/
def contradictionCheck (paras : List VPara) : Nat × Bool :=
  if paras.length < 2 then (0, true)
  else
    ((((allPairs paras).take 100).map (fun pq => pairContradictions pq.1 pq.2)).sum,
     decide ((((allPairs paras).take 100).map
       (fun pq => pairContradictions pq.1 pq.2)).sum = 0))

lemma shallNot_implies_shall {s : List Char}
    (h : reSearch "shall not" s = true) : reSearch "shall" s = true := by
  unfold reSearch at h ⊢
  have heq : ("shall not".toList) = "shall".toList ++ ' ' :: "not".toList := by decide
  rw [heq] at h
  exact containsBounded_append_right (by decide) s true h

lemma mustNot_implies_must {s : List Char}
    (h : reSearch "must not" s = true) : reSearch "must" s = true := by
  unfold reSearch at h ⊢
  have heq : ("must not".toList) = "must".toList ++ ' ' :: "not".toList := by decide
  rw [heq] at h
  exact containsBounded_append_right (by decide) s true h

lemma notRequired_implies_required {s : List Char}
    (h : reSearch "not required" s = true) : reSearch "required" s = true := by
  unfold reSearch at h ⊢
  have heq : ("not required".toList) = "not".toList ++ ' ' :: "required".toList := by decide
  rw [heq] at h
  exact containsBounded_append_left (by decide) (by decide) s true h

/-- C10 counterexample: two same-standard paragraphs that both contain
"permitted" — the *negative* phrase of the (prohibited, permitted) pair —
are not flagged, because "permitted" does not match `\bprohibited\b`:
neither record matches the positive pattern, so the check passes.  The
positive pattern matching inside its negative phrase is special to the
pairs whose negative phrase contains the positive word. -/
theorem contradiction_check_permitted_not_flagged :
    (contradictionCheck [⟨"a", "Use is permitted.", "315"⟩,
        ⟨"b", "Use is permitted here.", "315"⟩]).2 = true ∧
    reSearch "permitted" (toLowerStr "Use is permitted.".toList) = true ∧
    reSearch "permitted" (toLowerStr "Use is permitted here.".toList) = true := by
  refine ⟨by decide, by decide, by decide⟩

/-- C10 (amended): for the three pattern pairs whose negative phrase
contains the positive word with a word boundary — (shall, shall not),
(must, must not), (required, not required) — any two supplied same-standard
records that both contain the negative phrase are flagged as a potential
contradiction, and the check returns `passed = false`.  (For the other three
pairs the two phrases are disjoint words and two records sharing only the
negative phrase are not flagged.) -/
theorem contradiction_check_embedded_neg_amended (p1 p2 : VPara) (pos neg : String)
    (hpair : (pos, neg) ∈ [("shall", "shall not"), ("must", "must not"),
      ("required", "not required")])
    (hsame : p1.isa_number = p2.isa_number)
    (h1 : reSearch neg (toLowerStr p1.content.toList) = true)
    (h2 : reSearch neg (toLowerStr p2.content.toList) = true) :
    1 ≤ pairContradictions p1 p2 ∧ (contradictionCheck [p1, p2]).2 = false := by
  simp only [List.mem_cons, List.not_mem_nil, or_false] at hpair
  have hkey : reSearch pos (toLowerStr p2.content.toList) = true ∧
      (pos, neg) ∈ CONTRADICTION_PATTERNS := by
    rcases hpair with h | h | h <;>
      (rw [Prod.mk.injEq] at h; obtain ⟨rfl, rfl⟩ := h)
    · exact ⟨shallNot_implies_shall h2, by decide⟩
    · exact ⟨mustNot_implies_must h2, by decide⟩
    · exact ⟨notRequired_implies_required h2, by decide⟩
  obtain ⟨hpos2, hmem⟩ := hkey
  have hflag : (pos, neg) ∈ CONTRADICTION_PATTERNS.filter (fun pp =>
      ((reSearch pp.1 (toLowerStr p1.content.toList) &&
          reSearch pp.2 (toLowerStr p2.content.toList)) ||
        (reSearch pp.2 (toLowerStr p1.content.toList) &&
          reSearch pp.1 (toLowerStr p2.content.toList))) &&
      decide (p1.isa_number = p2.isa_number)) := by
    rw [List.mem_filter]
    refine ⟨hmem, ?_⟩
    rw [Bool.and_eq_true, Bool.or_eq_true, Bool.and_eq_true, Bool.and_eq_true]
    exact ⟨Or.inr ⟨h1, hpos2⟩, by simp [hsame]⟩
  have hcount : 1 ≤ pairContradictions p1 p2 := by
    unfold pairContradictions
    have := List.ne_nil_of_mem hflag
    have hlen := List.length_pos.mpr this
    omega
  refine ⟨hcount, ?_⟩
  unfold contradictionCheck
  rw [if_neg (by simp)]
  have hp : allPairs [p1, p2] = [(p1, p2)] := by
    unfold allPairs allPairs allPairs
    simp
  rw [hp]
  simp only [List.take, List.map, List.sum_cons, List.sum_nil]
  rw [decide_eq_false_iff_not]
  omega

/-- Witness for `contradiction_check_embedded_neg_amended`: two paragraphs
of standard 315 both containing "shall not". -/
theorem contradiction_check_embedded_neg_amended_witness :
    1 ≤ pairContradictions ⟨"a", "You shall not block.", "315"⟩
        ⟨"b", "It shall not stand.", "315"⟩ ∧
    (contradictionCheck [⟨"a", "You shall not block.", "315"⟩,
        ⟨"b", "It shall not stand.", "315"⟩]).2 = false := by
  exact contradiction_check_embedded_neg_amended
    ⟨"a", "You shall not block.", "315"⟩ ⟨"b", "It shall not stand.", "315"⟩
    "shall" "shall not" (by decide) rfl (by decide) (by decide)

/-! ## C6: citation accuracy (`citation_verify`) -/

/-- A row of `ISAParagraph` as consulted by `citation_verify`. -/
structure Para where
  id : String
  content : String
  paragraph_ref : String
deriving DecidableEq

/-- One citation: a cited source (by id or by reference) and the claim
attributed to it. -/
structure Citation where
  paragraph_id : String
  paragraph_ref : String
  claim : String
deriving DecidableEq

/-- `SELECT ... FROM ISAParagraph WHERE id = ?`, first row. -/
def lookupById (db : List Para) (pid : String) : Option Para :=
  (db.filter (fun p => decide (p.id = pid))).head?

/-- `SELECT ... FROM ISAParagraph WHERE paragraph_ref = ?`, first row. -/
def lookupByRef (db : List Para) (ref : List Char) : Option Para :=
  (db.filter (fun p => decide (p.paragraph_ref.toList = ref))).head?

/-- `re.sub(r"^ISA\s*", "", ref, flags=re.IGNORECASE)`. -/
def stripIsaLead (s : List Char) : List Char :=
  match s with
  | a :: b :: c :: rest =>
      if a.toLower = 'i' ∧ b.toLower = 's' ∧ c.toLower = 'a' then
        rest.dropWhile isSpaceChar
      else a :: b :: c :: rest
  | _ => s

/-- Citation resolution: by id when `paragraph_id` is non-empty, otherwise
by cleaned `paragraph_ref` when non-empty, otherwise unresolved. -/
def resolveCitation (db : List Para) (c : Citation) : Option Para :=
  if c.paragraph_id ≠ "" then lookupById db c.paragraph_id
  else if c.paragraph_ref ≠ "" then
    lookupByRef db (pyStrip (stripIsaLead c.paragraph_ref.toList))
  else none

/-- The fixed stop-word set of `citation_verify`. -/
def stopWords : List (List Char) :=
  (["the", "and", "for", "that", "this", "with", "from", "are", "was", "were",
    "been", "have", "has", "not", "but", "can", "should", "shall", "may",
    "must"].map String.toList)

/-- `re.findall(r"\b\w{4,}\b", claim.lower().strip())` followed by the
stop-word filter: the qualifying tokens of a claim. -/
def claimTerms (claim : String) : List (List Char) :=
  ((wordRuns (pyStrip (toLowerStr claim.toList))).filter
      (fun w => decide (4 ≤ w.length))).filter
    (fun w => !(stopWords.contains w))

/-- Python `t in s` on strings: contiguous-substring containment. -/
def isSubstring (t : List Char) : List Char → Bool
  | [] => decide (t = [])
  | c :: rest => t.isPrefixOf (c :: rest) || isSubstring t rest

/-- `sum(1 for t in claim_terms if t in content)`: tokens occurring as
substrings of the (lowercased) paragraph content. -/
def matchingTerms (terms : List (List Char)) (content : List Char) : Nat :=
  (terms.filter (fun t => isSubstring t content)).length

/-- The per-citation verdict recorded in `details`. -/
structure CitDetail where
  found : Bool
  supports : Bool
  overlap : ℚ
  termsTotal : Nat
deriving DecidableEq

/-- One iteration of the `citation_verify` loop. -/
def verifyCitation (db : List Para) (c : Citation) : CitDetail :=
  match resolveCitation db c with
  | none => { found := false, supports := false, overlap := 0, termsTotal := 0 }
  | some row =>
      if (claimTerms c.claim).length = 0 then
        { found := true, supports := true, overlap := 1, termsTotal := 0 }
      else
        { found := true,
          supports := decide ((3 : ℚ)/10 ≤
            (matchingTerms (claimTerms c.claim) (toLowerStr row.content.toList) : ℚ) /
              ((claimTerms c.claim).length : ℚ)),
          overlap := (matchingTerms (claimTerms c.claim)
            (toLowerStr row.content.toList) : ℚ) / ((claimTerms c.claim).length : ℚ),
          termsTotal := (claimTerms c.claim).length }

/-- `citation_verify`, reduced to `(score, passed)`: score is the fraction
of supported citations, and `passed` holds iff `score >= 0.75` (an empty
citation list passes vacuously with score 1). -/
def citationVerify (db : List Para) (cs : List Citation) : ℚ × Bool :=
  if cs = [] then (1, true)
  else
    ((((cs.map (verifyCitation db)).filter (fun d => d.supports)).length : ℚ) /
        (cs.length : ℚ),
     decide ((3 : ℚ)/4 ≤
       (((cs.map (verifyCitation db)).filter (fun d => d.supports)).length : ℚ) /
         (cs.length : ℚ)))

/-- C6: for a resolved citation, zero qualifying tokens mark the claim
supported; with at least one qualifying token the claim is supported iff the
matched-token fraction is at least 3/10 (so exactly 0.30 passes and anything
strictly below fails); the overall score is the fraction of supported
citations; and the check passes iff the score is at least 3/4. -/
theorem citation_verify_spec (db : List Para) (cs : List Citation) :
    (∀ c row, resolveCitation db c = some row →
       ((claimTerms c.claim).length = 0 → (verifyCitation db c).supports = true) ∧
       (0 < (claimTerms c.claim).length →
         ((verifyCitation db c).supports = true ↔
           (3 : ℚ)/10 ≤ (matchingTerms (claimTerms c.claim)
             (toLowerStr row.content.toList) : ℚ) / ((claimTerms c.claim).length : ℚ)))) ∧
    (cs ≠ [] →
      (citationVerify db cs).1 =
        (((cs.map (verifyCitation db)).filter (fun d => d.supports)).length : ℚ) /
          (cs.length : ℚ)) ∧
    ((citationVerify db cs).2 = true ↔ (3 : ℚ)/4 ≤ (citationVerify db cs).1) := by
  refine ⟨?_, ?_, ?_⟩
  · intro c row hres
    have hvc : verifyCitation db c =
        if (claimTerms c.claim).length = 0 then
          { found := true, supports := true, overlap := 1, termsTotal := 0 }
        else
          { found := true,
            supports := decide ((3 : ℚ)/10 ≤
              (matchingTerms (claimTerms c.claim) (toLowerStr row.content.toList) : ℚ) /
                ((claimTerms c.claim).length : ℚ)),
            overlap := (matchingTerms (claimTerms c.claim)
              (toLowerStr row.content.toList) : ℚ) / ((claimTerms c.claim).length : ℚ),
            termsTotal := (claimTerms c.claim).length } := by
      unfold verifyCitation
      rw [hres]
    constructor
    · intro hz
      rw [hvc, if_pos hz]
    · intro hpos
      rw [hvc, if_neg (show ¬ (claimTerms c.claim).length = 0 by omega)]
      exact decide_eq_true_iff
  · intro hne
    unfold citationVerify
    rw [if_neg hne]
  · by_cases hne : cs = []
    · subst hne
      unfold citationVerify
      rw [if_pos rfl]
      norm_num
    · unfold citationVerify
      rw [if_neg hne]
      exact decide_eq_true_iff


/-- Witness for `citation_verify_spec`: a claim with exactly 3 of 10
qualifying tokens in the cited content is supported (boundary 0.30 passes),
a claim with 1 of 4 tokens is not, and the single supported citation yields
score 1 and a pass. -/
theorem citation_verify_spec_witness :
    (verifyCitation [⟨"ip1", "alpha beta gamma", "315.12"⟩]
        ⟨"ip1", "", "alpha beta gamma wxyz qrst uvwx mnop hijk defg corn"⟩).supports
      = true ∧
    (verifyCitation [⟨"ip1", "alpha beta gamma", "315.12"⟩]
        ⟨"ip1", "", "alpha wxyz qrst uvwx"⟩).supports = false ∧
    ((citationVerify [⟨"ip1", "alpha beta gamma", "315.12"⟩]
        [⟨"ip1", "", "alpha beta gamma wxyz qrst uvwx mnop hijk defg corn"⟩]).2 = true ↔
      (3 : ℚ)/4 ≤ (citationVerify [⟨"ip1", "alpha beta gamma", "315.12"⟩]
        [⟨"ip1", "", "alpha beta gamma wxyz qrst uvwx mnop hijk defg corn"⟩]).1) := by
  have hres1 : resolveCitation [⟨"ip1", "alpha beta gamma", "315.12"⟩]
      ⟨"ip1", "", "alpha beta gamma wxyz qrst uvwx mnop hijk defg corn"⟩ =
      some ⟨"ip1", "alpha beta gamma", "315.12"⟩ := by decide
  have hres2 : resolveCitation [⟨"ip1", "alpha beta gamma", "315.12"⟩]
      ⟨"ip1", "", "alpha wxyz qrst uvwx"⟩ =
      some ⟨"ip1", "alpha beta gamma", "315.12"⟩ := by decide
  refine ⟨?_, ?_, ?_⟩
  · have h := ((citation_verify_spec [⟨"ip1", "alpha beta gamma", "315.12"⟩]
        [⟨"ip1", "", "alpha beta gamma wxyz qrst uvwx mnop hijk defg corn"⟩]).1
      ⟨"ip1", "", "alpha beta gamma wxyz qrst uvwx mnop hijk defg corn"⟩
      ⟨"ip1", "alpha beta gamma", "315.12"⟩ hres1).2 (by decide)
    apply h.mpr
    rw [show matchingTerms (claimTerms
        "alpha beta gamma wxyz qrst uvwx mnop hijk defg corn")
        (toLowerStr ("alpha beta gamma" : String).toList) = 3 from by decide]
    rw [show (claimTerms
        "alpha beta gamma wxyz qrst uvwx mnop hijk defg corn").length = 10 from by decide]
    norm_num
  · have h := ((citation_verify_spec [⟨"ip1", "alpha beta gamma", "315.12"⟩]
        [⟨"ip1", "", "alpha wxyz qrst uvwx"⟩]).1
      ⟨"ip1", "", "alpha wxyz qrst uvwx"⟩
      ⟨"ip1", "alpha beta gamma", "315.12"⟩ hres2).2 (by decide)
    rw [Bool.eq_false_iff]
    intro htrue
    have hle := h.mp htrue
    rw [show matchingTerms (claimTerms "alpha wxyz qrst uvwx")
        (toLowerStr ("alpha beta gamma" : String).toList) = 1 from by decide] at hle
    rw [show (claimTerms "alpha wxyz qrst uvwx").length = 4 from by decide] at hle
    norm_num at hle
  · exact (citation_verify_spec [⟨"ip1", "alpha beta gamma", "315.12"⟩]
      [⟨"ip1", "", "alpha beta gamma wxyz qrst uvwx mnop hijk defg corn"⟩]).2.2

/-! ## C8: acronym query expansion (`expand_query`) -/

/-- `ISA_ACRONYMS`: the fixed acronym dictionary (insertion order). -/
def ISA_ACRONYMS : List (String × String) :=
  [("RA", "risk assessment"),
   ("ToC", "tests of controls"),
   ("RMM", "risk of material misstatement"),
   ("ROMM", "risk of material misstatement"),
   ("AM", "application material"),
   ("AP", "audit procedures"),
   ("TCWG", "those charged with governance"),
   ("KAM", "key audit matters"),
   ("LCE", "less complex entities"),
   ("GCM", "going concern matters"),
   ("SA", "substantive analytical procedures"),
   ("IT", "information technology"),
   ("ITGC", "IT general controls"),
   ("PM", "performance materiality"),
   ("FS", "financial statements"),
   ("ISA", "International Standard on Auditing"),
   ("IFAC", "International Federation of Accountants"),
   ("IAASB", "International Auditing and Assurance Standards Board"),
   ("PCAOB", "Public Company Accounting Oversight Board")]

/-- `re.findall(r'\b[A-Za-z]+\b', query)`: the maximal word-character runs
that consist entirely of letters. -/
def queryTokens (query : String) : List (List Char) :=
  (wordRuns query.toList).filter (fun w => w.all Char.isAlpha)

/-- The dictionary lookup of one token: first the token itself
(`if token in ISA_ACRONYMS`), then its upper-cased form
(`elif token.upper() in ISA_ACRONYMS`). -/
def lookupAcronym (tok : List Char) : Option String :=
  match ISA_ACRONYMS.lookup (String.mk tok) with
  | some e => some e
  | none => ISA_ACRONYMS.lookup (String.mk (tok.map Char.toUpper))

/-- The expansion contributed by one token, suppressed when the full form is
already a case-insensitive substring of the original query
(`if expansion.lower() not in query.lower()`). -/
def expandOf (query : String) (tok : List Char) : Option String :=
  match lookupAcronym tok with
  | some e =>
      if isSubstring (toLowerStr e.toList) (toLowerStr query.toList) then none
      else some e
  | none => none

/-- The expansions appended by `expand_query`, in token order. -/
def queryExpansions (query : String) : List String :=
  (queryTokens query).filterMap (expandOf query)

/-- `expand_query`: the original text, with the space-joined expansions
appended after it when there are any. -/
def expandQuery (query : String) : String :=
  if queryExpansions query = [] then query
  else query ++ " " ++ String.intercalate " " (queryExpansions query)

lemma expandOf_eq_some {q : String} {tok : List Char} {e : String}
    (h : expandOf q tok = some e) :
    lookupAcronym tok = some e ∧
      isSubstring (toLowerStr e.toList) (toLowerStr q.toList) = false := by
  unfold expandOf at h
  split at h
  · rename_i e' heq
    split at h
    · exact absurd h (by simp)
    · rename_i hsub
      have he : e' = e := by simpa using h
      subst he
      exact ⟨heq, by simpa using hsub⟩
  · exact absurd h (by simp)

/-- C8 counterexample: no capitalisation of the mixed-case key "ToC" other
than the exact one matches — `expand_query "toc"` and `expand_query "Toc"`
append nothing (the upper-cased token "TOC" is not a key either), while the
exact "ToC" expands.  The lookup is therefore not case-insensitive. -/
theorem expand_query_toc_not_case_insensitive :
    expandQuery "toc" = "toc" ∧ expandQuery "Toc" = "Toc" ∧
    expandQuery "ToC" = "ToC tests of controls" := by
  refine ⟨by decide, by decide, by decide⟩

/-- C8 (amended): `expand_query` is a pure total function that tokenises the
query into maximal alphabetic words and looks each up by exact key match
and then by upper-cased token (so fully-upper-case keys match any
capitalisation, but the mixed-case key "ToC" only matches exactly); every
appended expansion comes from such a token and is not already a
case-insensitive substring of the original query (so re-expansion does not
duplicate a full form), and the output is the original text followed, when
any expansion matched, by the space-joined expansions. -/
theorem expand_query_amended (q : String) :
    ((queryExpansions q = [] ∧ expandQuery q = q) ∨
     (queryExpansions q ≠ [] ∧
       expandQuery q = q ++ " " ++ String.intercalate " " (queryExpansions q))) ∧
    (∀ e ∈ queryExpansions q,
       isSubstring (toLowerStr e.toList) (toLowerStr q.toList) = false ∧
       ∃ tok ∈ queryTokens q, lookupAcronym tok = some e) ∧
    (∀ tok e, ISA_ACRONYMS.lookup (String.mk (tok.map Char.toUpper)) = some e →
       ∃ e2, lookupAcronym tok = some e2) := by
  refine ⟨?_, ?_, ?_⟩
  · by_cases h : queryExpansions q = []
    · exact Or.inl ⟨h, by unfold expandQuery; rw [if_pos h]⟩
    · exact Or.inr ⟨h, by unfold expandQuery; rw [if_neg h]⟩
  · intro e he
    unfold queryExpansions at he
    rw [List.mem_filterMap] at he
    obtain ⟨tok, htok, hf⟩ := he
    obtain ⟨hl, hsub⟩ := expandOf_eq_some hf
    exact ⟨hsub, tok, htok, hl⟩
  · intro tok e h
    unfold lookupAcronym
    cases hl : ISA_ACRONYMS.lookup (String.mk tok) with
    | some e1 => exact ⟨e1, rfl⟩
    | none => exact ⟨e, by rw [h]⟩

/-- Witness for `expand_query_amended`, realising the spec's test property:
`"RA procedures"` expands to `"RA procedures risk assessment"`, and
re-expanding the expanded string does not duplicate the full form. -/
theorem expand_query_amended_witness :
    (queryExpansions "RA procedures" ≠ [] ∧
      expandQuery "RA procedures" =
        "RA procedures" ++ " " ++ String.intercalate " " (queryExpansions "RA procedures")) ∧
    expandQuery "RA procedures" = "RA procedures risk assessment" ∧
    expandQuery (expandQuery "RA procedures") = "RA procedures risk assessment" := by
  refine ⟨?_, by decide, by decide⟩
  rcases (expand_query_amended "RA procedures").1 with h | h
  · exact absurd h.1 (by decide)
  · exact h

end IsaKb
